import Mathlib

/-!
Verification development for the nnut embedded key-value store
(buffered WAL + latest-wins operation buffer + flush/truncate engine +
secondary-index maintenance + buffer-aware reads + query executor over
a B+tree of named partitions).

The Go sources are shallowly embedded below:

* Go byte strings (`[]byte`, `string`) become `Bytes := List Nat`.
* The bbolt B+tree becomes `Tree`, an association list of named
  partitions, each a list of key/value pairs sorted in byte order
  (bbolt stores keys sorted and cursors iterate in that order).
* The msgpack codec is out of scope for the repository (an external,
  self-describing, self-delimiting, stable round-trip codec per the
  design docs); it is embedded as the concrete executable codec
  `encOp`/`decOp`/`encEntry`/`decEntry` below, which is self-delimiting,
  stable and round-trips, with one modelling choice: decoding a value of
  the wrong shape fails (Go msgpack instead yields a zero value whose
  checksum then mismatches; both behaviours stop replay at that frame).
* `crc32` is the reference CRC-32 (IEEE polynomial, reflected form),
  exactly `hash/crc32.ChecksumIEEE`.
* Goroutines/mutexes are sequentialised: each exported operation is one
  atomic step; the flush-signal channel and cancellation contexts carry
  no state and are dropped; Go map iteration over the operation buffer
  and over the index-field map is determinised to insertion order.
-/

set_option maxRecDepth 4000
set_option maxHeartbeats 1000000

namespace Nnut

/-- Byte strings: Go `[]byte` and `string` values (a list of byte values). -/
abbrev Bytes := List Nat

/-- Go `bytes.Compare x y < 0` / string `<`: strict lexicographic order on bytes. -/
def lexLt : Bytes → Bytes → Bool
  | [], [] => false
  | [], _ :: _ => true
  | _ :: _, [] => false
  | a :: as, b :: bs => a < b || (a == b && lexLt as bs)

/-- Go `bytes.SplitN(k, []byte{0}, 2)`: split at the first NUL byte.
Returns `none` when no NUL is present (the Go call then yields a single
part, which every caller skips). -/
def splitComposite : Bytes → Option (Bytes × Bytes)
  | [] => none
  | 0 :: rest => some ([], rest)
  | b :: rest => (splitComposite rest).map fun p => (b :: p.1, p.2)

/-! ### Codec

Concrete executable embedding of the external serialization codec used
for WALframes (design contract: stable, self-delimiting, round-trip).
Natural numbers are encoded as little-endian base-128 varints, byte
strings are length-prefixed, structures are tagged field sequences. -/

/-- Varint encoder worker; `fuel ≥ n` always holds at call sites. -/
def encNatAux : Nat → Nat → Bytes
  | 0, n => [n % 128]
  | fuel + 1, n => if n < 128 then [n] else (n % 128 + 128) :: encNatAux fuel (n / 128)

/-- Encode a natural number as a self-delimiting varint. -/
def encNat (n : Nat) : Bytes := encNatAux n n

/-- Decode a varint; returns the value and the remaining bytes. -/
def decNat : Bytes → Option (Nat × Bytes)
  | [] => none
  | b :: rest =>
    if b < 128 then some (b, rest)
    else (decNat rest).map fun p => (b - 128 + 128 * p.1, p.2)

/-- Encode a byte string, length-prefixed. -/
def encBytes (b : Bytes) : Bytes := encNat b.length ++ b

/-- Decode a length-prefixed byte string. -/
def decBytes (l : Bytes) : Option (Bytes × Bytes) :=
  match decNat l with
  | none => none
  | some (n, rest) => if n ≤ rest.length then some (rest.take n, rest.drop n) else none

/-- Encode a boolean as one byte. -/
def encBool (b : Bool) : Bytes := [if b then 1 else 0]

/-- Decode a boolean byte. -/
def decBool : Bytes → Option (Bool × Bytes)
  | 0 :: rest => some (false, rest)
  | 1 :: rest => some (true, rest)
  | _ => none

/-! ### CRC-32 (IEEE), reference implementation of `hash/crc32.ChecksumIEEE`. -/

/-- The reversed IEEE CRC-32 polynomial. -/
def crc32Poly : Nat := 0xEDB88320

/-- One bit step of the reflected CRC-32 computation. -/
def crc32Step (c : Nat) : Nat := if c % 2 = 1 then (c / 2) ^^^ crc32Poly else c / 2

/-- Fold one byte into the running CRC (eight bit steps). -/
def crc32Byte (c b : Nat) : Nat :=
  crc32Step (crc32Step (crc32Step (crc32Step
    (crc32Step (crc32Step (crc32Step (crc32Step (c ^^^ b % 256))))))))

/-- CRC-32 checksum with the IEEE polynomial over a byte string. -/
def crc32 (data : Bytes) : Nat := (data.foldl crc32Byte 0xFFFFFFFF) ^^^ 0xFFFFFFFF

/-! ### Operations and WAL frames (`database.go`) -/

/-- One secondary-index delta carried by an operation
(`indexOperation` in `database.go`): index name, old indexed value
(empty when the record was previously unindexed), new indexed value
(empty for removals). -/
structure indexOperation where
  IndexName : Bytes
  OldValue : Bytes
  NewValue : Bytes
deriving DecidableEq

/-- A logical mutation (`operation` in `database.go`): bucket, record
key, encoded record value (empty for deletes), put/delete flag, index
deltas, and the epoch stamped at buffer-insertion time (Go `uint64`;
wraparound is unreachable and not modelled). -/
structure operation where
  Bucket : Bytes
  Key : Bytes
  Value : Bytes
  IsPut : Bool
  IndexOperations : List indexOperation
  Epoch : Nat
deriving DecidableEq

/-- A WAL frame (`walEntry` in `database.go`): operation plus the
CRC-32 of the encoded operation. -/
structure walEntry where
  Operation : operation
  Checksum : Nat
deriving DecidableEq

/-- Encode one index delta. -/
def encIndexOp (i : indexOperation) : Bytes :=
  encBytes i.IndexName ++ encBytes i.OldValue ++ encBytes i.NewValue

/-- Decode one index delta. -/
def decIndexOp (l : Bytes) : Option (indexOperation × Bytes) :=
  match decBytes l with
  | none => none
  | some (n, r₁) =>
    match decBytes r₁ with
    | none => none
    | some (o, r₂) =>
      match decBytes r₂ with
      | none => none
      | some (v, r₃) => some (⟨n, o, v⟩, r₃)

/-- Decode a counted sequence of index deltas. -/
def decIndexOps : Nat → Bytes → Option (List indexOperation × Bytes)
  | 0, l => some ([], l)
  | n + 1, l =>
    match decIndexOp l with
    | none => none
    | some (i, r) =>
      match decIndexOps n r with
      | none => none
      | some (is, r') => some (i :: is, r')

/-- Encode an operation (codec tag 1, fixed field order for checksum
determinism, as the WAL frame contract requires). -/
def encOp (op : operation) : Bytes :=
  1 :: (encBytes op.Bucket ++ encBytes op.Key ++ encBytes op.Value ++
    encBool op.IsPut ++ encNat op.IndexOperations.length ++
    (op.IndexOperations.map encIndexOp).flatten ++ encNat op.Epoch)

/-- Decode an operation. -/
def decOp : Bytes → Option (operation × Bytes)
  | [] => none
  | t :: l =>
    if t = 1 then
      match decBytes l with
      | none => none
      | some (b, r₁) =>
        match decBytes r₁ with
        | none => none
        | some (k, r₂) =>
          match decBytes r₂ with
          | none => none
          | some (v, r₃) =>
            match decBool r₃ with
            | none => none
            | some (p, r₄) =>
              match decNat r₄ with
              | none => none
              | some (n, r₅) =>
                match decIndexOps n r₅ with
                | none => none
                | some (is, r₆) =>
                  match decNat r₆ with
                  | none => none
                  | some (e, r₇) => some (⟨b, k, v, p, is, e⟩, r₇)
    else none

/-- Encode a WAL frame (codec tag 2: the encoded operation followed by
the encoded checksum). -/
def encEntry (e : walEntry) : Bytes :=
  2 :: (encOp e.Operation ++ encNat e.Checksum)

/-- Decode a WAL frame. -/
def decEntry : Bytes → Option (walEntry × Bytes)
  | [] => none
  | t :: l =>
    if t = 2 then
      match decOp l with
      | none => none
      | some (op, r₁) =>
        match decNat r₁ with
        | none => none
        | some (c, r₂) => some (⟨op, c⟩, r₂)
    else none

/-! ### Codec round-trip and consumption lemmas -/

theorem decNat_encNatAux (fuel n : Nat) (h : n ≤ fuel) (t : Bytes) :
    decNat (encNatAux fuel n ++ t) = some (n, t) := by
  induction fuel generalizing n with
  | zero =>
    interval_cases n
    simp [encNatAux, decNat]
  | succ fuel ih =>
    by_cases hn : n < 128
    · simp [encNatAux, hn, decNat]
    · have hdiv : n / 128 ≤ fuel := by
        have h1 : 0 < n := by omega
        have := Nat.div_lt_self h1 (by norm_num : 1 < 128)
        omega
      have hx : ¬ (n % 128 + 128 < 128) := by omega
      simp [encNatAux, hn, hx, decNat, ih _ hdiv]
      omega

@[simp] theorem decNat_encNat (n : Nat) (t : Bytes) :
    decNat (encNat n ++ t) = some (n, t) :=
  decNat_encNatAux n n le_rfl t

@[simp] theorem decBytes_encBytes (b : Bytes) (t : Bytes) :
    decBytes (encBytes b ++ t) = some (b, t) := by
  simp only [encBytes, List.append_assoc]
  simp only [decBytes, decNat_encNat]
  have hle : b.length ≤ (b ++ t).length := by simp
  simp [hle, List.take_left, List.drop_left]

@[simp] theorem decBool_encBool (b : Bool) (t : Bytes) :
    decBool (encBool b ++ t) = some (b, t) := by
  cases b <;> rfl

@[simp] theorem decIndexOp_encIndexOp (i : indexOperation) (t : Bytes) :
    decIndexOp (encIndexOp i ++ t) = some (i, t) := by
  simp [encIndexOp, decIndexOp, List.append_assoc]

theorem decIndexOps_enc (is : List indexOperation) (t : Bytes) :
    decIndexOps is.length ((is.map encIndexOp).flatten ++ t) = some (is, t) := by
  induction is with
  | nil => rfl
  | cons i is ih => simp [decIndexOps, List.append_assoc, ih]

@[simp] theorem decOp_encOp (op : operation) (t : Bytes) :
    decOp (encOp op ++ t) = some (op, t) := by
  simp only [encOp, List.cons_append, decOp, if_pos rfl, List.append_assoc]
  simp [decIndexOps_enc]

@[simp] theorem decEntry_encEntry (e : walEntry) (t : Bytes) :
    decEntry (encEntry e ++ t) = some (e, t) := by
  simp only [encEntry, List.cons_append, decEntry, if_pos rfl, List.append_assoc]
  simp

theorem decNat_length {l : Bytes} {p : Nat × Bytes} (h : decNat l = some p) :
    p.2.length < l.length := by
  induction l generalizing p with
  | nil => simp [decNat] at h
  | cons b rest ih =>
    simp only [decNat] at h
    by_cases hb : b < 128
    · simp only [hb, if_pos] at h
      cases h
      simp
    · simp only [hb, if_neg, not_false_iff] at h
      match hd : decNat rest with
      | none => simp [hd] at h
      | some q =>
        simp only [hd, Option.map_some] at h
        cases h
        have := ih hd
        simp at this ⊢
        omega

theorem decBytes_length {l : Bytes} {p : Bytes × Bytes} (h : decBytes l = some p) :
    p.2.length < l.length := by
  simp only [decBytes] at h
  match hd : decNat l with
  | none => simp [hd] at h
  | some q =>
    simp only [hd] at h
    by_cases hle : q.1 ≤ q.2.length
    · simp only [hle, if_pos] at h
      cases h
      have h1 := decNat_length hd
      simp
      omega
    · simp [hle] at h

theorem decBool_length {l : Bytes} {p : Bool × Bytes} (h : decBool l = some p) :
    p.2.length < l.length := by
  match l with
  | [] => simp [decBool] at h
  | 0 :: rest => simp only [decBool] at h; cases h; simp
  | 1 :: rest => simp only [decBool] at h; cases h; simp
  | (n + 2) :: rest => simp [decBool] at h

theorem decIndexOp_length {l : Bytes} {p : indexOperation × Bytes}
    (h : decIndexOp l = some p) : p.2.length < l.length := by
  simp only [decIndexOp] at h
  match h₁ : decBytes l with
  | none => simp [h₁] at h
  | some q₁ =>
    simp only [h₁] at h
    match h₂ : decBytes q₁.2 with
    | none => simp [h₂] at h
    | some q₂ =>
      simp only [h₂] at h
      match h₃ : decBytes q₂.2 with
      | none => simp [h₃] at h
      | some q₃ =>
        simp only [h₃] at h
        cases h
        have := decBytes_length h₁
        have := decBytes_length h₂
        have := decBytes_length h₃
        dsimp only at *
        omega

theorem decIndexOps_length {n : Nat} {l : Bytes} {p : List indexOperation × Bytes}
    (h : decIndexOps n l = some p) : p.2.length ≤ l.length := by
  induction n generalizing l p with
  | zero => simp only [decIndexOps] at h; cases h; exact le_rfl
  | succ n ih =>
    simp only [decIndexOps] at h
    match h₁ : decIndexOp l with
    | none => simp [h₁] at h
    | some q₁ =>
      simp only [h₁] at h
      match h₂ : decIndexOps n q₁.2 with
      | none => simp [h₂] at h
      | some q₂ =>
        simp only [h₂] at h
        cases h
        have := decIndexOp_length h₁
        have := ih h₂
        dsimp only at *
        omega

theorem decOp_length {l : Bytes} {p : operation × Bytes} (h : decOp l = some p) :
    p.2.length < l.length := by
  match l with
  | [] => simp [decOp] at h
  | t :: l =>
    simp only [decOp] at h
    by_cases ht : t = 1
    · simp only [ht, if_pos] at h
      match h₁ : decBytes l with
      | none => simp [h₁] at h
      | some q₁ =>
        simp only [h₁] at h
        match h₂ : decBytes q₁.2 with
        | none => simp [h₂] at h
        | some q₂ =>
          simp only [h₂] at h
          match h₃ : decBytes q₂.2 with
          | none => simp [h₃] at h
          | some q₃ =>
            simp only [h₃] at h
            match h₄ : decBool q₃.2 with
            | none => simp [h₄] at h
            | some q₄ =>
              simp only [h₄] at h
              match h₅ : decNat q₄.2 with
              | none => simp [h₅] at h
              | some q₅ =>
                simp only [h₅] at h
                match h₆ : decIndexOps q₅.1 q₅.2 with
                | none => simp [h₆] at h
                | some q₆ =>
                  simp only [h₆] at h
                  match h₇ : decNat q₆.2 with
                  | none => simp [h₇] at h
                  | some q₇ =>
                    simp only [h₇] at h
                    cases h
                    have := decBytes_length h₁
                    have := decBytes_length h₂
                    have := decBytes_length h₃
                    have := decBool_length h₄
                    have := decNat_length h₅
                    have := decIndexOps_length h₆
                    have := decNat_length h₇
                    simp at *
                    omega
    · simp [ht] at h

theorem decEntry_length {l : Bytes} {p : walEntry × Bytes} (h : decEntry l = some p) :
    p.2.length < l.length := by
  match l with
  | [] => simp [decEntry] at h
  | t :: l =>
    simp only [decEntry] at h
    by_cases ht : t = 2
    · simp only [ht, if_pos] at h
      match h₁ : decOp l with
      | none => simp [h₁] at h
      | some q₁ =>
        simp only [h₁] at h
        match h₂ : decNat q₁.2 with
        | none => simp [h₂] at h
        | some q₂ =>
          simp only [h₂] at h
          cases h
          have := decOp_length h₁
          have := decNat_length h₂
          simp at *
          omega
    · simp [ht] at h

/-! ### The B+tree (bbolt facade)

A partition (bbolt bucket) is a list of key/value pairs kept sorted in
byte order, which is how bbolt stores entries and how its cursors
iterate. The tree maps partition names to partitions, also sorted. -/

/-- One ordered partition: sorted key/value pairs. -/
abbrev Partition := List (Bytes × Bytes)

/-- The B+tree: named partitions, sorted by name. -/
abbrev Tree := List (Bytes × Partition)

/-- `bucket.Put(k, v)`: sorted insert-or-replace. -/
def partPut (k v : Bytes) : Partition → Partition
  | [] => [(k, v)]
  | (k', v') :: rest =>
    if k = k' then (k, v) :: rest
    else if lexLt k k' then (k, v) :: (k', v') :: rest
    else (k', v') :: partPut k v rest

/-- `bucket.Delete(k)`: remove a key (no-op when absent). -/
def partDel (k : Bytes) : Partition → Partition
  | [] => []
  | (k', v') :: rest => if k = k' then rest else (k', v') :: partDel k rest

/-- `bucket.Get(k)`: `none` plays Go's `nil` result. -/
def partGet (k : Bytes) : Partition → Option Bytes
  | [] => none
  | (k', v') :: rest => if k = k' then some v' else partGet k rest

/-- `tx.Bucket(name)`: `none` plays Go's `nil` bucket. -/
def treeBucket (name : Bytes) : Tree → Option Partition
  | [] => none
  | (n, p) :: rest => if name = n then some p else treeBucket name rest

/-- `tx.CreateBucketIfNotExists(name)`: sorted insert of an empty
partition when the name is absent. -/
def treeCreate (name : Bytes) : Tree → Tree
  | [] => [(name, [])]
  | (n, p) :: rest =>
    if name = n then (n, p) :: rest
    else if lexLt name n then (name, []) :: (n, p) :: rest
    else (n, p) :: treeCreate name rest

/-- Update the partition stored under `name` (which exists after
`treeCreate`). -/
def treeModify (name : Bytes) (f : Partition → Partition) : Tree → Tree
  | [] => []
  | (n, p) :: rest => if name = n then (n, f p) :: rest else (n, p) :: treeModify name f rest

/-- `"_index_"` as bytes: the index-partition name separator. -/
def idxSep : Bytes := [95, 105, 110, 100, 101, 120, 95]

/-- Apply one operation inside a write transaction: the shared loop body
of `Flush` and `replayWAL` in `database.go`. Ensures the base partition,
puts or deletes the record, then for each index delta ensures the index
partition (`<bucket>_index_<name>`), deletes the old composite key
`old \x00 key` when the old value is non-empty and inserts the new
composite key `new \x00 key` (empty value) when the new value is
non-empty. -/
def treeApply (op : operation) (t : Tree) : Tree :=
  let t₁ := treeCreate op.Bucket t
  let t₂ :=
    if op.IsPut then treeModify op.Bucket (partPut op.Key op.Value) t₁
    else treeModify op.Bucket (partDel op.Key) t₁
  op.IndexOperations.foldl (fun t idx =>
    let idxName := op.Bucket ++ idxSep ++ idx.IndexName
    let t := treeCreate idxName t
    let t :=
      if idx.OldValue ≠ [] then
        treeModify idxName (partDel (idx.OldValue ++ 0 :: op.Key)) t
      else t
    if idx.NewValue ≠ [] then
      treeModify idxName (partPut (idx.NewValue ++ 0 :: op.Key) []) t
    else t) t₂

/-! ### Database state, WAL append, flush, truncation, replay
(`database.go`). -/

/-- The database: the wrapped B+tree, WAL file contents, in-memory
operation buffer (Go map determinised as an insertion-ordered
association list), buffered byte count, and the current epoch.
Mutexes, channels and the background flusher carry no state in the
sequentialised model. -/
structure DBState where
  tree : Tree
  walFile : Bytes
  buffer : List (Bytes × operation)
  bytesInBuffer : Nat
  currentEpoch : Nat
deriving DecidableEq

/-- `bufferKey`: the composite buffer key `bucket \x00 key`. -/
def bufferKey (bucket key : Bytes) : Bytes := bucket ++ 0 :: key

/-- Go map assignment `buffer[key] = op`: replace in place or append. -/
def bufUpdate (key : Bytes) (op : operation) : List (Bytes × operation) → List (Bytes × operation)
  | [] => [(key, op)]
  | (k', o') :: rest =>
    if k' = key then (key, op) :: rest else (k', o') :: bufUpdate key op rest

/-- `getLatestBufferedOperation`: look up the buffered operation for a
`(bucket, key)` pair. -/
def getLatestBufferedOperation (db : DBState) (bucket key : Bytes) : Option operation :=
  db.buffer.lookup (bufferKey bucket key)

/-- `writeOperation`: stamp the current epoch, encode the operation,
checksum it, append the encoded `walEntry` frame to the WAL file, then
coalesce into the buffer and account the encoded size. The flush-signal
send carries no state and is dropped; encode and file-write failures do
not occur in the pure model. -/
def writeOperation (db : DBState) (op₀ : operation) : DBState :=
  let op := { op₀ with Epoch := db.currentEpoch }
  let encodedOp := encOp op
  let checksum := crc32 encodedOp
  let encodedEntry := encEntry ⟨op, checksum⟩
  { db with
    walFile := db.walFile ++ encodedEntry
    buffer := bufUpdate (bufferKey op.Bucket op.Key) op db.buffer
    bytesInBuffer := db.bytesInBuffer + encodedEntry.length }

/-- `writeOperations`: the batch variant — stamp all, append the
concatenated frames in one write, then coalesce each into the buffer. -/
def writeOperations (db : DBState) (ops₀ : List operation) : DBState :=
  if ops₀.isEmpty then db
  else
    let ops := ops₀.map fun op => { op with Epoch := db.currentEpoch }
    let frames := (ops.map fun op => encEntry ⟨op, crc32 (encOp op)⟩).flatten
    { db with
      walFile := db.walFile ++ frames
      buffer := ops.foldl (fun buf op => bufUpdate (bufferKey op.Bucket op.Key) op buf) db.buffer
      bytesInBuffer := db.bytesInBuffer + frames.length }

/-- Decode loop of `truncateWAL`: collect the operations of frames that
decode and whose recomputed CRC matches, keeping those with epoch
greater than `committedEpoch`; stop at the first decode error, skip
(`continue`) frames whose checksum mismatches. `fuel ≥ data.length`
at every call site. -/
def truncCollect (committedEpoch : Nat) : Nat → Bytes → List operation
  | 0, _ => []
  | fuel + 1, data =>
    match decEntry data with
    | none => []
    | some (e, rest) =>
      let tail := truncCollect committedEpoch fuel rest
      if crc32 (encOp e.Operation) = e.Checksum then
        if e.Operation.Epoch > committedEpoch then e.Operation :: tail else tail
      else tail

/-- `truncateWAL`: read the whole WAL, keep the operations of valid
frames with epoch greater than `committedEpoch`, and rewrite the file
with the bare encoded operations (exactly what the Go code emits:
`encoder.Encode(op)` on each remaining operation). -/
def truncateWAL (data : Bytes) (committedEpoch : Nat) : Bytes :=
  ((truncCollect committedEpoch data.length data).map encOp).flatten

/-- Replay loop of `replayWAL`: decode a frame, verify its checksum by
re-encoding the operation, apply it to the tree, and continue; stop at
the first decode error or checksum mismatch. `fuel ≥ data.length` at
every call site. -/
def replayGo : Nat → Bytes → Tree → Tree
  | 0, _, t => t
  | fuel + 1, data, t =>
    match decEntry data with
    | none => t
    | some (e, rest) =>
      if crc32 (encOp e.Operation) = e.Checksum then
        replayGo fuel rest (treeApply e.Operation t)
      else t

/-- `replayWAL` on an existing WAL file: apply the verified prefix and
remove the file. The boolean records that the file was removed (the Go
code removes it on every loop exit: EOF, decode error, or checksum
mismatch); B+tree transactions cannot fail in the pure model, so the
open never returns an error for corruption. -/
def replayWAL (data : Bytes) (t : Tree) : Tree × Bool :=
  (replayGo data.length data t, true)

/-- `Flush`: snapshot the buffer (stamping the current epoch), clear it
and the byte count, and when non-empty apply every snapshotted operation
in one write transaction. `commitOk` models the bbolt commit outcome:
on failure the error is only logged and the WAL is left untouched; on
success the WAL is truncated at the current epoch, which is then
incremented. -/
def Flush (db : DBState) (commitOk : Bool) : DBState :=
  let ops := db.buffer.map fun p => { p.2 with Epoch := db.currentEpoch }
  let db₁ := { db with buffer := [], bytesInBuffer := 0 }
  if ops.isEmpty then db₁
  else if commitOk then
    { db₁ with
      tree := ops.foldl (fun t op => treeApply op t) db₁.tree
      walFile := truncateWAL db₁.walFile db₁.currentEpoch
      currentEpoch := db₁.currentEpoch + 1 }
  else db₁

/-! ### The typed store

The store layer is generic over a user struct `T`; the model
instantiates it at a representative record type mirroring the
repository's `TestUser`, with a string key field (`nnut:"key"`), a
string-indexed field (`nnut:"index:name"`) and an int-indexed field
(`nnut:"index:age"`). Reflection (`reflect.Value.Field`) becomes
`fieldGet`; the schema maps computed by `NewStore` become explicit
association lists. -/

/-- A record value: string key, string indexed field, int field. -/
structure Rec where
  UUID : Bytes
  Name : Bytes
  Age : Int
deriving DecidableEq

/-- Encode an integer: sign byte plus varint magnitude. -/
def encInt (i : Int) : Bytes :=
  if 0 ≤ i then 0 :: encNat i.toNat else 1 :: encNat (-i).toNat

/-- Decode an integer. -/
def decInt : Bytes → Option (Int × Bytes)
  | 0 :: rest => (decNat rest).map fun p => ((p.1 : Int), p.2)
  | 1 :: rest => (decNat rest).map fun p => (-(p.1 : Int), p.2)
  | _ => none

/-- Encode a record (the codec's `Marshal` over the user struct). -/
def encRec (r : Rec) : Bytes := encBytes r.UUID ++ encBytes r.Name ++ encInt r.Age

/-- Decode a record from a full value blob (the codec's `Unmarshal`). -/
def decRec (data : Bytes) : Option Rec :=
  match decBytes data with
  | none => none
  | some (u, r₁) =>
    match decBytes r₁ with
    | none => none
    | some (n, r₂) =>
      match decInt r₂ with
      | some (a, []) => some ⟨u, n, a⟩
      | _ => none

/-- A runtime field value produced by reflection: string or int. -/
inductive FieldVal where
  | str (v : Bytes)
  | int (v : Int)
deriving DecidableEq

/-- `reflect.Value.Field(i)` on a record. Indices beyond the declared
fields are unreachable (the schema maps only name declared fields). -/
def fieldGet (r : Rec) : Nat → FieldVal
  | 0 => .str r.UUID
  | 1 => .str r.Name
  | 2 => .int r.Age
  | _ => .str []

/-- `reflect.Value.String()` on a field known to be a string (the key
field, which `NewStore` requires to be string-typed). -/
def fieldString : FieldVal → Bytes
  | .str v => v
  | .int _ => []

/-- The schema computed once by `NewStore` for a record type: bucket
name, key field index, index name to field index, field name to field
index. -/
structure StoreDef where
  bucket : Bytes
  keyField : Nat
  indexFields : List (Bytes × Nat)
  fieldMap : List (Bytes × Nat)

/-- The `users` store over the model record type: key field `UUID`,
indexes `name` (string field `Name`) and `age` (int field `Age`). -/
def usersStore : StoreDef :=
  { bucket := [117, 115, 101, 114, 115]
    keyField := 0
    indexFields := [([110, 97, 109, 101], 1), ([97, 103, 101], 2)]
    fieldMap := [([85, 85, 73, 68], 0), ([78, 97, 109, 101], 1), ([65, 103, 101], 2)] }

/-- `extractIndexValues`: indexed string-field values by index name
(non-string indexed fields are skipped, exactly as the Go loop skips
them). -/
def extractIndexValues (s : StoreDef) (r : Rec) : List (Bytes × Bytes) :=
  s.indexFields.filterMap fun p =>
    match fieldGet r p.2 with
    | .str v => some (p.1, v)
    | .int _ => none

/-- Read from a Go `map[string]string` with its zero-value default. -/
def lookupD (m : List (Bytes × Bytes)) (k : Bytes) : Bytes := (m.lookup k).getD []

/-- `validateKey`: non-empty, at most 1024 bytes, no NUL byte. -/
def validateKey (key : Bytes) : Bool :=
  !key.isEmpty && key.length ≤ 1024 && !key.contains 0

/-- The closed error taxonomy reached by the modelled store paths. -/
inductive StoreErr where
  | keyInvalid
  | keyNotFound
  | bucketNotFound
  | decodeErr
  | invalidQuery
deriving DecidableEq

/-- `Store.Get` (current revision): validate the key, consult the
operation buffer first — a buffered put decodes to its value, a buffered
tombstone is `KeyNotFound` — and only on a buffer miss open a read
transaction and look the key up in the base partition. -/
def storeGet (s : StoreDef) (db : DBState) (key : Bytes) : Except StoreErr Rec :=
  if !validateKey key then .error .keyInvalid
  else
    match getLatestBufferedOperation db s.bucket key with
    | some op =>
      if op.IsPut then
        match decRec op.Value with
        | some r => .ok r
        | none => .error .decodeErr
      else .error .keyNotFound
    | none =>
      match treeBucket s.bucket db.tree with
      | none => .error .bucketNotFound
      | some p =>
        match partGet key p with
        | none => .error .keyNotFound
        | some data =>
          match decRec data with
          | some r => .ok r
          | none => .error .decodeErr

/-- `Store.Put` (current revision under `src/`): extract the key via
reflection and reject only an empty key; read the existing record
buffer-aware to derive old index values (errors fall back to no old
values); emit one index delta per declared index whose old and new
string values differ; marshal the record and hand the operation to
`writeOperation`. -/
def storePut (s : StoreDef) (db : DBState) (r : Rec) : Except StoreErr DBState :=
  let key := fieldString (fieldGet r s.keyField)
  if key.isEmpty then .error .keyInvalid
  else
    let oldIndexValues :=
      match storeGet s db key with
      | .ok old => extractIndexValues s old
      | .error _ => []
    let newIndexValues := extractIndexValues s r
    let indexOps := s.indexFields.filterMap fun p =>
      let oldValue := lookupD oldIndexValues p.1
      let newValue := lookupD newIndexValues p.1
      if oldValue ≠ newValue then some (⟨p.1, oldValue, newValue⟩ : indexOperation)
      else none
    .ok (writeOperation db
      { Bucket := s.bucket, Key := key, Value := encRec r, IsPut := true
        IndexOperations := indexOps, Epoch := 0 })

/-- `Store.Delete` (current revision): validate the key, read the
existing record buffer-aware, emit a removal delta for each index with a
non-empty current value, and hand the tombstone operation to
`writeOperation`. -/
def storeDelete (s : StoreDef) (db : DBState) (key : Bytes) : Except StoreErr DBState :=
  if !validateKey key then .error .keyInvalid
  else
    let oldIndexValues :=
      match storeGet s db key with
      | .ok old => extractIndexValues s old
      | .error _ => []
    let indexOps := s.indexFields.filterMap fun p =>
      let oldValue := lookupD oldIndexValues p.1
      if oldValue ≠ [] then some (⟨p.1, oldValue, []⟩ : indexOperation)
      else none
    .ok (writeOperation db
      { Bucket := s.bucket, Key := key, Value := [], IsPut := false
        IndexOperations := indexOps, Epoch := 0 })

/-! ### Query planner and executor (`store_query.go`, current revision) -/

/-- Comparison operators of query conditions. -/
inductive Operator where
  | eq
  | gt
  | lt
  | ge
  | le
deriving DecidableEq

/-- Sort orders. -/
inductive Sorting where
  | unsorted
  | ascending
  | descending
deriving DecidableEq

/-- One query condition: field name, comparison value (`none` plays the
Go `nil` interface value), operator. -/
structure Condition where
  Field : Bytes
  Value : Option FieldVal
  Operator : Operator

/-- A query: optional index name, limit and offset (Go `int`, so
possibly negative before validation), sort order, conditions. -/
structure Query where
  Index : Bytes
  Limit : Int
  Offset : Int
  SortOrder : Sorting
  Conditions : List Condition

/-- Go `compare(a, b interface{})`: string and int compare natively,
anything else (type mismatch or nil) returns 0. -/
def compareGo (a : FieldVal) (b : Option FieldVal) : Int :=
  match a, b with
  | .str va, some (.str vb) => if lexLt va vb then -1 else if lexLt vb va then 1 else 0
  | .int va, some (.int vb) => if va < vb then -1 else if vb < va then 1 else 0
  | _, _ => 0

/-- `matchesCondition`: project the field named by the condition through
the schema's field map and compare. `Equals` uses deep equality
(`reflect.DeepEqual`); the ordering operators go through `compareGo`.
An unknown field never matches. -/
def matchesCondition (s : StoreDef) (item : Rec) (c : Condition) : Bool :=
  match s.fieldMap.lookup c.Field with
  | some fieldIndex =>
    let fieldValue := fieldGet item fieldIndex
    match c.Operator with
    | .eq => decide (c.Value = some fieldValue)
    | .gt => decide (0 < compareGo fieldValue c.Value)
    | .lt => decide (compareGo fieldValue c.Value < 0)
    | .ge => decide (0 ≤ compareGo fieldValue c.Value)
    | .le => decide (compareGo fieldValue c.Value ≤ 0)
  | none => false

/-- `validateQuery`: non-negative limit and offset, declared index,
declared condition fields. (The nil-query case and the unsupported
condition-value types are unrepresentable in the model.) -/
def validateQuery (s : StoreDef) (q : Query) : Bool :=
  if q.Limit < 0 then false
  else if q.Offset < 0 then false
  else if !q.Index.isEmpty && (s.indexFields.lookup q.Index).isNone then false
  else q.Conditions.all fun c => (s.fieldMap.lookup c.Field).isSome

/-- Insertion sort with a strict `less` test: the model's
determinisation of `sort.Strings` / `sort.Slice`. -/
def insertSorted (less : α → α → Bool) (x : α) : List α → List α
  | [] => [x]
  | y :: ys => if less x y then x :: y :: ys else y :: insertSorted less x ys

/-- Sort a list with `insertSorted`. -/
def sortByLess (less : α → α → Bool) (l : List α) : List α :=
  l.foldr (insertSorted less) []

/-- `sort.Strings`: ascending byte order. -/
def sortBytes (l : List Bytes) : List Bytes := sortByLess lexLt l

/-- Equality-scan collector: from the seek position, gather record keys
while the composite key keeps the `value \x00` prefix, capped at
`maxKeys` when positive. -/
def collectEq (pfx : Bytes) (maxKeys : Nat) : List Bytes → Nat → List Bytes
  | [], _ => []
  | k :: ks, cnt =>
    if pfx.isPrefixOf k then
      if maxKeys > 0 ∧ cnt ≥ maxKeys then []
      else
        match splitComposite k with
        | some p => p.2 :: collectEq pfx maxKeys ks (cnt + 1)
        | none => collectEq pfx maxKeys ks cnt
    else []

/-- Greater-than collector (after the equals block was skipped): gather
while the indexed value stays strictly greater, capped. -/
def collectGt (v : Bytes) (maxKeys : Nat) : List Bytes → Nat → List Bytes
  | [], _ => []
  | k :: ks, cnt =>
    if maxKeys > 0 ∧ cnt ≥ maxKeys then []
    else
      match splitComposite k with
      | some p => if lexLt v p.1 then p.2 :: collectGt v maxKeys ks (cnt + 1) else []
      | none => collectGt v maxKeys ks cnt

/-- Greater-or-equal collector, from the seek position. -/
def collectGe (v : Bytes) (maxKeys : Nat) : List Bytes → Nat → List Bytes
  | [], _ => []
  | k :: ks, cnt =>
    if maxKeys > 0 ∧ cnt ≥ maxKeys then []
    else
      match splitComposite k with
      | some p => if !lexLt p.1 v then p.2 :: collectGe v maxKeys ks (cnt + 1) else []
      | none => collectGe v maxKeys ks cnt

/-- Less-than collector, from the first entry. -/
def collectLt (v : Bytes) (maxKeys : Nat) : List Bytes → Nat → List Bytes
  | [], _ => []
  | k :: ks, cnt =>
    if maxKeys > 0 ∧ cnt ≥ maxKeys then []
    else
      match splitComposite k with
      | some p => if lexLt p.1 v then p.2 :: collectLt v maxKeys ks (cnt + 1) else []
      | none => collectLt v maxKeys ks cnt

/-- Less-or-equal collector, from the first entry. -/
def collectLe (v : Bytes) (maxKeys : Nat) : List Bytes → Nat → List Bytes
  | [], _ => []
  | k :: ks, cnt =>
    if maxKeys > 0 ∧ cnt ≥ maxKeys then []
    else
      match splitComposite k with
      | some p => if !lexLt v p.1 then p.2 :: collectLe v maxKeys ks (cnt + 1) else []
      | none => collectLe v maxKeys ks cnt

/-- `getKeysForConditionTx`: serve one indexed string condition from its
index partition via cursor scans, then sort the record keys. Returns
nothing for a non-indexed or non-string condition or a missing index
partition. -/
def getKeysForConditionTx (s : StoreDef) (tree : Tree) (c : Condition) (maxKeys : Nat) :
    List Bytes :=
  match c.Value with
  | some (.str v) =>
    if (s.indexFields.lookup c.Field).isNone then []
    else
      match treeBucket (s.bucket ++ idxSep ++ c.Field) tree with
      | none => []
      | some part =>
        let ks := part.map Prod.fst
        let pfx := v ++ [0]
        let keys :=
          match c.Operator with
          | .eq => collectEq pfx maxKeys (ks.dropWhile fun k => lexLt k pfx) 0
          | .gt =>
            collectGt v maxKeys
              ((ks.dropWhile fun k => lexLt k pfx).dropWhile fun k => pfx.isPrefixOf k) 0
          | .ge => collectGe v maxKeys (ks.dropWhile fun k => lexLt k pfx) 0
          | .lt => collectLt v maxKeys ks 0
          | .le => collectLe v maxKeys ks 0
        sortBytes keys
  | _ => []

/-- Equality counter for `countKeysForConditionTx`. -/
def countEq (pfx : Bytes) (maxKeys : Nat) : List Bytes → Nat → Nat
  | [], c => c
  | k :: ks, c =>
    if pfx.isPrefixOf k then
      if maxKeys > 0 ∧ c + 1 ≥ maxKeys then c + 1 else countEq pfx maxKeys ks (c + 1)
    else c

/-- Greater-than counter (counts the terminating entry too, as the Go
loop increments before testing the bound). -/
def countGt (v : Bytes) (maxKeys : Nat) : List Bytes → Nat → Nat
  | [], c => c
  | k :: ks, c =>
    if maxKeys > 0 ∧ c + 1 ≥ maxKeys then c + 1
    else
      match splitComposite k with
      | some p => if !lexLt v p.1 then c + 1 else countGt v maxKeys ks (c + 1)
      | none => countGt v maxKeys ks (c + 1)

/-- Greater-or-equal counter. -/
def countGe (v : Bytes) (maxKeys : Nat) : List Bytes → Nat → Nat
  | [], c => c
  | k :: ks, c =>
    if maxKeys > 0 ∧ c + 1 ≥ maxKeys then c + 1
    else
      match splitComposite k with
      | some p => if lexLt p.1 v then c + 1 else countGe v maxKeys ks (c + 1)
      | none => countGe v maxKeys ks (c + 1)

/-- Less-than counter. -/
def countLt (v : Bytes) (maxKeys : Nat) : List Bytes → Nat → Nat
  | [], c => c
  | k :: ks, c =>
    if maxKeys > 0 ∧ c + 1 ≥ maxKeys then c + 1
    else
      match splitComposite k with
      | some p => if !lexLt p.1 v then c + 1 else countLt v maxKeys ks (c + 1)
      | none => countLt v maxKeys ks (c + 1)

/-- Less-or-equal counter. -/
def countLe (v : Bytes) (maxKeys : Nat) : List Bytes → Nat → Nat
  | [], c => c
  | k :: ks, c =>
    if maxKeys > 0 ∧ c + 1 ≥ maxKeys then c + 1
    else
      match splitComposite k with
      | some p => if lexLt v p.1 then c + 1 else countLe v maxKeys ks (c + 1)
      | none => countLe v maxKeys ks (c + 1)

/-- `countKeysForConditionTx`: cheap candidate count for one indexed
condition, capped at `maxKeys` when positive. -/
def countKeysForConditionTx (s : StoreDef) (tree : Tree) (c : Condition) (maxKeys : Nat) :
    Nat :=
  match c.Value with
  | some (.str v) =>
    if (s.indexFields.lookup c.Field).isNone then 0
    else
      match treeBucket (s.bucket ++ idxSep ++ c.Field) tree with
      | none => 0
      | some part =>
        let ks := part.map Prod.fst
        let pfx := v ++ [0]
        match c.Operator with
        | .eq => countEq pfx maxKeys (ks.dropWhile fun k => lexLt k pfx) 0
        | .gt =>
          countGt v maxKeys
            ((ks.dropWhile fun k => lexLt k pfx).dropWhile fun k => pfx.isPrefixOf k) 0
        | .ge => countGe v maxKeys (ks.dropWhile fun k => lexLt k pfx) 0
        | .lt => countLt v maxKeys ks 0
        | .le => countLe v maxKeys ks 0
  | _ => 0

/-- `getAllKeysTx`: all base-partition keys, capped when `maxKeys` is
positive. -/
def getAllKeysTx (s : StoreDef) (tree : Tree) (maxKeys : Nat) : List Bytes :=
  match treeBucket s.bucket tree with
  | none => []
  | some p => if maxKeys = 0 then p.map Prod.fst else (p.map Prod.fst).take maxKeys

/-- `countAllKeysTx`: size of the base partition. -/
def countAllKeysTx (s : StoreDef) (tree : Tree) : Nat :=
  match treeBucket s.bucket tree with
  | none => 0
  | some p => p.length

/-- Collector for `getKeysFromIndexTx` (cap tested in the loop
condition). -/
def collectIdx (maxKeys : Nat) : List Bytes → Nat → List Bytes
  | [], _ => []
  | k :: ks, cnt =>
    if maxKeys = 0 ∨ cnt < maxKeys then
      match splitComposite k with
      | some p => p.2 :: collectIdx maxKeys ks (cnt + 1)
      | none => collectIdx maxKeys ks cnt
    else []

/-- `getKeysFromIndexTx`: record keys in index order (cursor forward, or
backward for descending). -/
def getKeysFromIndexTx (s : StoreDef) (tree : Tree) (index : Bytes) (sorting : Sorting)
    (maxKeys : Nat) : List Bytes :=
  match treeBucket (s.bucket ++ idxSep ++ index) tree with
  | none => []
  | some p =>
    let ks := if sorting = .descending then (p.map Prod.fst).reverse else p.map Prod.fst
    collectIdx maxKeys ks 0

/-- `countKeysFromIndexTx`: size of the index partition. -/
def countKeysFromIndexTx (s : StoreDef) (tree : Tree) (index : Bytes) : Nat :=
  match treeBucket (s.bucket ++ idxSep ++ index) tree with
  | none => 0
  | some p => p.length

/-- Candidate-key scan over an explicit candidate list: fetch, decode,
keep keys whose records match every condition, cap after appending. -/
def scanCandidates (s : StoreDef) (p : Partition) (conds : List Condition) (maxKeys : Nat) :
    List Bytes → Nat → List Bytes
  | [], _ => []
  | k :: ks, cnt =>
    match partGet k p with
    | none => scanCandidates s p conds maxKeys ks cnt
    | some data =>
      match decRec data with
      | none => scanCandidates s p conds maxKeys ks cnt
      | some item =>
        if conds.all (matchesCondition s item) then
          if maxKeys > 0 ∧ cnt + 1 ≥ maxKeys then [k]
          else k :: scanCandidates s p conds maxKeys ks (cnt + 1)
        else scanCandidates s p conds maxKeys ks cnt

/-- Full scan over the base partition with the same filtering. -/
def scanAll (s : StoreDef) (conds : List Condition) (maxKeys : Nat) :
    Partition → Nat → List Bytes
  | [], _ => []
  | (k, v) :: rest, cnt =>
    match decRec v with
    | none => scanAll s conds maxKeys rest cnt
    | some item =>
      if conds.all (matchesCondition s item) then
        if maxKeys > 0 ∧ cnt + 1 ≥ maxKeys then [k]
        else k :: scanAll s conds maxKeys rest (cnt + 1)
      else scanAll s conds maxKeys rest cnt

/-- `scanForConditionsTx`: residual filtering over the candidate keys
when a candidate set exists (`some`), else over the whole base
partition. -/
def scanForConditionsTx (s : StoreDef) (tree : Tree) (conds : List Condition)
    (candidates : Option (List Bytes)) (maxKeys : Nat) : List Bytes :=
  match treeBucket s.bucket tree with
  | none => []
  | some p =>
    match candidates with
    | some cs => scanCandidates s p conds maxKeys cs 0
    | none => scanAll s conds maxKeys p 0

/-- `intersectSlices`: the keys of `other` that are also in `base`, in
the order of `other`. -/
def intersectSlices (base other : List Bytes) : List Bytes :=
  other.filter fun k => base.contains k

/-- Is a condition served by an index (declared index on the field and a
string comparison value)? -/
def isIndexedCond (s : StoreDef) (c : Condition) : Bool :=
  (s.indexFields.lookup c.Field).isSome &&
    (match c.Value with | some (.str _) => true | _ => false)

/-- `getCandidateKeysTx`: split the conditions into indexed and
residual; count candidates per indexed condition (capped), pick the
smallest as the driver, materialise it (capped only when it is the only
filter) and intersect the others into it; then run the residual scan
over those candidates (or over the whole base when nothing was indexed)
and intersect the two sets. -/
def getCandidateKeysTx (s : StoreDef) (tree : Tree) (conditions : List Condition)
    (maxKeys : Nat) : List Bytes :=
  if conditions.isEmpty then getAllKeysTx s tree maxKeys
  else
    let parts := conditions.partition (isIndexedCond s)
    let indexedConditions := parts.1
    let nonIndexedConditions := parts.2
    let indexedKeys :=
      if indexedConditions.isEmpty then []
      else
        let conditionSizes :=
          indexedConditions.map fun c => (c, countKeysForConditionTx s tree c maxKeys)
        match sortByLess (fun a b => decide (a.2 < b.2)) conditionSizes with
        | [] => []
        | primary :: others =>
          let keysMax :=
            if indexedConditions.length = 1 ∧ nonIndexedConditions.isEmpty then maxKeys
            else 0
          others.foldl
            (fun acc cs => intersectSlices acc (getKeysForConditionTx s tree cs.1 0))
            (getKeysForConditionTx s tree primary.1 keysMax)
    let nonIndexedKeys :=
      if nonIndexedConditions.isEmpty then []
      else
        let candidates : Option (List Bytes) :=
          if indexedConditions.isEmpty then none else some indexedKeys
        scanForConditionsTx s tree nonIndexedConditions candidates maxKeys
    if nonIndexedConditions.isEmpty then indexedKeys
    else if indexedConditions.isEmpty then nonIndexedKeys
    else nonIndexedKeys.filter fun k => indexedKeys.contains k

/-- `sortResults`: in-memory sort of the decoded records by the index
field in the requested order. -/
def sortResults (s : StoreDef) (results : List Rec) (index : Bytes) (sorting : Sorting) :
    List Rec :=
  match s.indexFields.lookup index with
  | none => results
  | some fieldIndex =>
    sortByLess (fun a b =>
      let cmp := compareGo (fieldGet a fieldIndex) (some (fieldGet b fieldIndex))
      if sorting = .descending then decide (0 < cmp) else decide (cmp < 0)) results

/-- `Store.Query`: validate, gather candidate keys (conditions, else
index order, else all keys), paginate the key list, fetch and decode the
records from the base partition inside one read transaction, and apply
the explicit in-memory sort when both an index and conditions are
present. -/
def storeQuery (s : StoreDef) (db : DBState) (q : Query) : Except StoreErr (List Rec) :=
  if !validateQuery s q then .error .invalidQuery
  else
    let tree := db.tree
    let maxKeys : Nat := if 0 < q.Limit then (q.Offset + q.Limit).toNat else 0
    let candidateKeys :=
      if !q.Conditions.isEmpty then getCandidateKeysTx s tree q.Conditions maxKeys
      else if !q.Index.isEmpty then getKeysFromIndexTx s tree q.Index q.SortOrder maxKeys
      else getAllKeysTx s tree maxKeys
    let start := min q.Offset.toNat candidateKeys.length
    let stop :=
      if 0 < q.Limit ∧ start + q.Limit.toNat < candidateKeys.length then
        start + q.Limit.toNat
      else candidateKeys.length
    let keysToFetch := (candidateKeys.take stop).drop start
    match treeBucket s.bucket tree with
    | none => .error .bucketNotFound
    | some p =>
      let results := keysToFetch.filterMap fun k => (partGet k p).bind decRec
      .ok (if !q.Index.isEmpty && !q.Conditions.isEmpty then
        sortResults s results q.Index q.SortOrder
      else results)

/-- `Store.QueryCount`: validate, then count candidates (after
intersections and residual filtering), or the index partition size, or
the base partition size. -/
def storeQueryCount (s : StoreDef) (db : DBState) (q : Query) : Except StoreErr Nat :=
  if !validateQuery s q then .error .invalidQuery
  else
    let tree := db.tree
    if !q.Conditions.isEmpty then .ok (getCandidateKeysTx s tree q.Conditions 0).length
    else if !q.Index.isEmpty then .ok (countKeysFromIndexTx s tree q.Index)
    else .ok (countAllKeysTx s tree)

/-! ### Supporting lemmas and shared example values -/

instance {ε α : Type} [DecidableEq ε] [DecidableEq α] : DecidableEq (Except ε α)
  | .ok a, .ok b =>
    if h : a = b then isTrue (by rw [h]) else isFalse fun hc => h (Except.ok.inj hc)
  | .error a, .error b =>
    if h : a = b then isTrue (by rw [h]) else isFalse fun hc => h (Except.error.inj hc)
  | .ok _, .error _ => isFalse Except.noConfusion
  | .error _, .ok _ => isFalse Except.noConfusion

/-- A freshly opened database over an empty B+tree: empty WAL, empty
buffer, epoch 1 (as `OpenWithConfig` initialises `currentEpoch`). -/
def dbEmpty : DBState := ⟨[], [], [], 0, 1⟩

/-- Looking up the key just assigned in a Go map returns the new value. -/
theorem lookup_bufUpdate_self (key : Bytes) (op : operation)
    (buf : List (Bytes × operation)) : (bufUpdate key op buf).lookup key = some op := by
  induction buf with
  | nil => simp [bufUpdate, List.lookup]
  | cons p rest ih =>
    obtain ⟨k', o'⟩ := p
    by_cases h : k' = key
    · subst h
      simp [bufUpdate, List.lookup]
    · have hb : (key == k') = false := by simp [Ne.symm h]
      simp [bufUpdate, h, List.lookup, hb, ih]

/-- Assigning one Go map key leaves every other key's binding unchanged. -/
theorem lookup_bufUpdate_other (key key' : Bytes) (op : operation)
    (buf : List (Bytes × operation)) (h : key' ≠ key) :
    (bufUpdate key op buf).lookup key' = buf.lookup key' := by
  have hb : (key' == key) = false := by simp [h]
  induction buf with
  | nil => simp [bufUpdate, List.lookup, hb]
  | cons p rest ih =>
    obtain ⟨k', o'⟩ := p
    by_cases hp : k' = key
    · subst hp
      simp [bufUpdate, List.lookup, hb]
    · by_cases hk : key' = k'
      · subst hk
        simp [bufUpdate, hp, List.lookup]
      · have hb2 : (key' == k') = false := by simp [hk]
        simp [bufUpdate, hp, List.lookup, hb2, ih]

/-- The record codec round-trips. -/
theorem decRec_encRec (r : Rec) : decRec (encRec r) = some r := by
  simp only [encRec, decRec, List.append_assoc, decBytes_encBytes]
  by_cases h : 0 ≤ r.Age
  · have h2 : decInt (encInt r.Age) = some (r.Age, []) := by
      simp only [encInt, if_pos h, decInt]
      rw [← List.append_nil (encNat r.Age.toNat), decNat_encNat]
      simp [Int.toNat_of_nonneg h]
    simp [h2]
  · have h2 : decInt (encInt r.Age) = some (r.Age, []) := by
      simp only [encInt, if_neg h, decInt]
      rw [← List.append_nil (encNat (-r.Age).toNat), decNat_encNat]
      have : 0 ≤ -r.Age := by omega
      simp [Int.toNat_of_nonneg this]
    simp [h2]

/-- `treeApply` never reads the epoch stamp. -/
theorem treeApply_epoch (op : operation) (e : Nat) (t : Tree) :
    treeApply { op with Epoch := e } t = treeApply op t := rfl

/-! ### Claim theorems -/

/-- A concurrently appended operation at epoch 2, retained by a
truncation whose flush committed epoch 1. -/
def c1op : operation := ⟨[98], [107], [1], true, [], 2⟩

/-- The WAL file holding the single valid frame for `c1op`. -/
def c1file : Bytes := encEntry ⟨c1op, crc32 (encOp c1op)⟩

/-- Claim C1: after a successful flush at epoch E, the rewritten WAL
should contain exactly the valid checksummed frames with epoch greater
than E, each rewritten as a checksummed frame so a subsequent replay can
decode and verify every retained entry. The epoch-selection half holds,
but `truncateWAL` rewrites the retained operations bare —
`encoder.Encode(op)` without the `walEntry` wrapper or checksum — so the
rewritten file is not in WAL frame format and a subsequent replay of it
verifies nothing and applies nothing (it stops at the first frame and
deletes the file), even though applying the retained operation would
change the tree. -/
theorem C1_truncateWAL_writes_unverifiable_frames :
    truncateWAL c1file 1 = encOp c1op ∧
    truncateWAL c1file 1 ≠ encEntry ⟨c1op, crc32 (encOp c1op)⟩ ∧
    (replayWAL (truncateWAL c1file 1) []).1 = [] ∧
    treeApply c1op [] ≠ [] := by decide

/-- A put operation buffered before the failing flush. -/
def c2op : operation := ⟨[98], [107], [1], true, [], 0⟩

/-- The database state with `c2op` written (in WAL and buffer). -/
def c2db : DBState := writeOperation dbEmpty c2op

/-- Claim C2: if the flush's B+tree commit fails, the WAL must not be
truncated (this half holds) and every snapshotted operation must remain
buffered for retry and stay visible to buffer-aware reads (this half
fails: `Flush` drains the buffer before the transaction and does not
restore it on failure, so the operation is gone from the buffer and
invisible to `getLatestBufferedOperation`, contradicting the code's own
comment that operations remain in buffer for retry). -/
theorem C2_flush_failure_drops_buffered_operations :
    (Flush c2db false).walFile = c2db.walFile ∧
    (Flush c2db false).tree = c2db.tree ∧
    c2db.buffer ≠ [] ∧
    getLatestBufferedOperation c2db [98] [107] ≠ none ∧
    (Flush c2db false).buffer = [] ∧
    getLatestBufferedOperation (Flush c2db false) [98] [107] = none := by decide

/-- First write: a record whose `Name` is indexed with value `"A"`. -/
def c6r1 : Rec := ⟨[107], [65], 0⟩

/-- Second write: same key, same indexed value, different `Age`. -/
def c6r2 : Rec := ⟨[107], [65], 1⟩

/-- The database after the first put. -/
def c6db1 : DBState :=
  match storePut usersStore dbEmpty c6r1 with
  | .ok d => d
  | .error _ => dbEmpty

/-- The database after both puts. -/
def c6db2 : DBState :=
  match storePut usersStore c6db1 c6r2 with
  | .ok d => d
  | .error _ => c6db1

/-- The name-index partition of the `users` bucket. -/
def c6idxName : Bytes := [117, 115, 101, 114, 115] ++ idxSep ++ [110, 97, 109, 101]

/-- Claim C6: replaying any prefix of a valid WAL onto an empty B+tree
should equal coalescing the same operations in the buffer and applying
them through a single `Flush`. This fails: after two puts of the same
key with the same indexed value, the second operation carries no index
delta (its old and new indexed values agree), coalescing discards the
first operation together with its index insertion, so `Flush` leaves the
name-index partition nonexistent while replaying the two WAL frames
creates it with the composite key `"A" \x00 "k"` — the replayed state is
the consistent one and the flushed state violates index/base
consistency. -/
theorem C6_flush_and_replay_diverge :
    storePut usersStore dbEmpty c6r1 = .ok c6db1 ∧
    storePut usersStore c6db1 c6r2 = .ok c6db2 ∧
    (Flush c6db2 true).tree ≠ (replayWAL c6db2.walFile []).1 ∧
    treeBucket c6idxName (replayWAL c6db2.walFile []).1 = some [([65, 0, 107], [])] ∧
    treeBucket c6idxName (Flush c6db2 true).tree = none := by decide

/-- A record whose key contains a NUL byte. -/
def c7recNul : Rec := ⟨[97, 0, 98], [65], 0⟩

/-- A record whose key is 1025 bytes long. -/
def c7recLong : Rec := ⟨List.replicate 1025 97, [65], 0⟩

/-- A record with an empty key. -/
def c7recEmpty : Rec := ⟨[], [65], 0⟩

/-- The database after putting the NUL-key record. -/
def c7dbNul : DBState :=
  match storePut usersStore dbEmpty c7recNul with
  | .ok d => d
  | .error _ => dbEmpty

set_option maxRecDepth 100000 in
/-- Claim C7: every write should reject an invalid record key (empty,
longer than 1024 bytes, or containing NUL) with a `KeyInvalid` error and
leave all state unchanged. `Put` rejects only the empty key: it accepts
and buffers records whose keys contain NUL or exceed 1024 bytes, while
`validateKey` — which `Get` and `Delete` of the same revision enforce —
rejects them, so the accepted writes are unreadable and undeletable. -/
theorem C7_put_skips_key_validation :
    storePut usersStore dbEmpty c7recNul = .ok c7dbNul ∧
    c7dbNul ≠ dbEmpty ∧
    validateKey c7recNul.UUID = false ∧
    validateKey c7recLong.UUID = false ∧
    (fieldString (fieldGet c7recLong usersStore.keyField)).isEmpty = false ∧
    storePut usersStore dbEmpty c7recEmpty = .error .keyInvalid ∧
    storeGet usersStore c7dbNul c7recNul.UUID = .error .keyInvalid ∧
    storeDelete usersStore c7dbNul c7recNul.UUID = .error .keyInvalid := by decide

/-- Are a reflected field value and a condition value of incompatible
types (string against int, or a nil condition value)? -/
def incompatVals (a : FieldVal) (b : Option FieldVal) : Bool :=
  match a, b with
  | .str _, some (.str _) => false
  | .int _, some (.int _) => false
  | _, _ => true

/-- A record whose `Name` field is the string `"A"`. -/
def c8rec : Rec := ⟨[107], [65], 5⟩

/-- A `>=` condition comparing the string field `Name` with an int. -/
def c8cond : Condition := ⟨[78, 97, 109, 101], some (.int 3), .ge⟩

/-- Claim C8 counterexample: a type-incompatible comparison is claimed
to never match, for any operator; but with `>=` (and likewise `<=`) the
record matches, because `compare` returns 0 for incomparable values and
`0 >= 0` holds. -/
theorem C8_counterexample_ge_matches :
    usersStore.fieldMap.lookup c8cond.Field = some 1 ∧
    incompatVals (fieldGet c8rec 1) c8cond.Value = true ∧
    matchesCondition usersStore c8rec c8cond = true := by decide

/-- `compare` returns 0 on type-incompatible arguments. -/
theorem compareGo_incompat (a : FieldVal) (b : Option FieldVal)
    (h : incompatVals a b = true) : compareGo a b = 0 := by
  cases a <;> rcases b with _ | fv
  · rfl
  · cases fv
    · simp [incompatVals] at h
    · rfl
  · rfl
  · cases fv
    · rfl
    · simp [incompatVals] at h

/-- Deep equality fails on type-incompatible arguments. -/
theorem deepEqual_incompat (a : FieldVal) (b : Option FieldVal)
    (h : incompatVals a b = true) : decide (b = some a) = false := by
  cases a <;> rcases b with _ | fv
  · simp
  · cases fv
    · simp [incompatVals] at h
    · simp
  · simp
  · cases fv
    · simp
    · simp [incompatVals] at h

/-- Claim C8 (amended): residual matching of a condition whose field
value and condition value have incompatible types yields no match for
the operators `=`, `<` and `>`, but does match for `>=` and `<=`
(`compare` treats incomparable values as equal, and `matchesCondition`
then accepts the inclusive comparisons). -/
theorem C8_incompatible_types_match_iff_inclusive (s : StoreDef) (item : Rec)
    (c : Condition) (i : Nat) (hf : s.fieldMap.lookup c.Field = some i)
    (hinc : incompatVals (fieldGet item i) c.Value = true) :
    matchesCondition s item c =
      decide (c.Operator = .ge ∨ c.Operator = .le) := by
  obtain ⟨cf, cv, cop⟩ := c
  simp only at hf hinc
  unfold matchesCondition
  rw [hf]
  cases cop <;>
    simp [compareGo_incompat _ _ hinc, deepEqual_incompat _ _ hinc]

/-- A `<=` condition comparing the int field `Age` with a string. -/
def c8condLe : Condition := ⟨[65, 103, 101], some (.str [66]), .le⟩

/-- Witness for the amended C8 theorem at a concrete incompatible
comparison: the `<=` condition matches. -/
theorem C8_witness : matchesCondition usersStore c8rec c8condLe = true :=
  (C8_incompatible_types_match_iff_inclusive usersStore c8rec c8condLe 2
    (by decide) (by decide)).trans (by decide)

/-- Claim C9: `Query` and `QueryCount` read only the B+tree (a single
read transaction); they never consult the operation buffer. Two
database states with identical trees and arbitrary, different buffered
operations produce identical query results and counts. -/
theorem C9_query_independent_of_buffer (s : StoreDef) (db₁ db₂ : DBState) (q : Query)
    (h : db₁.tree = db₂.tree) :
    storeQuery s db₁ q = storeQuery s db₂ q ∧
    storeQueryCount s db₁ q = storeQueryCount s db₂ q := by
  constructor
  · unfold storeQuery
    rw [h]
  · unfold storeQueryCount
    rw [h]

/-- A one-record base partition for the C9 witness. -/
def c9tree : Tree := [([117, 115, 101, 114, 115], [([107], encRec c6r1)])]

/-- State with the witness tree and an empty buffer. -/
def c9db1 : DBState := ⟨c9tree, [], [], 0, 1⟩

/-- State with the same tree but a buffered (unflushed) tombstone for
the stored key — visible to `Get`, invisible to `Query`. -/
def c9db2 : DBState :=
  ⟨c9tree, [7],
    [(bufferKey [117, 115, 101, 114, 115] [107],
      ⟨[117, 115, 101, 114, 115], [107], [], false, [], 1⟩)], 5, 1⟩

/-- An unconditioned, unindexed query. -/
def c9q : Query := ⟨[], 0, 0, .unsorted, []⟩

/-- Witness for C9 at concrete states differing only in the buffer. -/
theorem C9_witness :
    storeQuery usersStore c9db1 c9q = storeQuery usersStore c9db2 c9q ∧
    storeQueryCount usersStore c9db1 c9q = storeQueryCount usersStore c9db2 c9q :=
  C9_query_independent_of_buffer usersStore c9db1 c9db2 c9q rfl

/-- Splitting at the separating NUL of `bufferKey` is unambiguous when
the bucket halves are NUL-free. -/
theorem append_nul_inj (b₁ : Bytes) (k₁ : Bytes) (b₂ : Bytes) (k₂ : Bytes)
    (h₁ : (0 : Nat) ∉ b₁) (h₂ : (0 : Nat) ∉ b₂)
    (h : b₁ ++ 0 :: k₁ = b₂ ++ 0 :: k₂) : b₁ = b₂ ∧ k₁ = k₂ := by
  induction b₁ generalizing b₂ with
  | nil =>
    cases b₂ with
    | nil => simpa using h
    | cons y bs =>
      simp only [List.nil_append, List.cons_append, List.cons.injEq] at h
      exfalso
      apply h₂
      rw [h.1]
      exact List.mem_cons_self y bs
  | cons a as ih =>
    cases b₂ with
    | nil =>
      simp only [List.cons_append, List.nil_append, List.cons.injEq] at h
      exfalso
      apply h₁
      rw [← h.1]
      exact List.mem_cons_self a as
    | cons y bs =>
      simp only [List.cons_append, List.cons.injEq] at h
      have := ih bs (fun hm => h₁ (List.mem_cons_of_mem a hm))
        (fun hm => h₂ (List.mem_cons_of_mem y hm)) h.2
      exact ⟨by rw [h.1, this.1], this.2⟩

/-- Fold of Go map assignments for operations on other pairs leaves a
pair's binding unchanged. -/
theorem foldl_bufUpdate_other (b k : Bytes) (l : List operation)
    (buf : List (Bytes × operation))
    (h : ∀ op ∈ l, bufferKey op.Bucket op.Key ≠ bufferKey b k) :
    (l.foldl (fun buf op => bufUpdate (bufferKey op.Bucket op.Key) op buf) buf).lookup
        (bufferKey b k) = buf.lookup (bufferKey b k) := by
  induction l generalizing buf with
  | nil => rfl
  | cons op rest ih =>
    simp only [List.foldl_cons]
    rw [ih _ fun o ho => h o (List.mem_cons_of_mem op ho)]
    exact lookup_bufUpdate_other _ _ _ _ (Ne.symm (h op (List.mem_cons_self op rest)))

/-- Claim C10: with NUL-free bucket names (as `NewStore` guarantees),
the composite buffer key `bucket \x00 key` is injective over
`(bucket, key)` pairs — even when record keys contain NUL bytes — so the
buffer holds at most one operation per pair and a batched write to other
pairs never overwrites or aliases the buffered operation of this pair. -/
theorem C10_bufferKey_injective (b₁ k₁ b₂ k₂ : Bytes)
    (h₁ : (0 : Nat) ∉ b₁) (h₂ : (0 : Nat) ∉ b₂) :
    (bufferKey b₁ k₁ = bufferKey b₂ k₂ ↔ b₁ = b₂ ∧ k₁ = k₂) ∧
    (∀ (db : DBState) (ops : List operation),
      (∀ op ∈ ops, (0 : Nat) ∉ op.Bucket ∧ ¬(op.Bucket = b₁ ∧ op.Key = k₁)) →
      getLatestBufferedOperation (writeOperations db ops) b₁ k₁ =
        getLatestBufferedOperation db b₁ k₁) := by
  constructor
  · constructor
    · exact fun h => append_nul_inj b₁ k₁ b₂ k₂ h₁ h₂ h
    · rintro ⟨rfl, rfl⟩
      rfl
  · intro db ops hops
    unfold writeOperations
    by_cases he : ops.isEmpty
    · rw [if_pos he]
    · rw [if_neg he]
      unfold getLatestBufferedOperation
      simp only
      apply foldl_bufUpdate_other
      intro op hop
      simp only [List.mem_map] at hop
      obtain ⟨op₀, hop₀, rfl⟩ := hop
      intro hc
      have := append_nul_inj _ _ _ _ (hops op₀ hop₀).1 h₁ hc
      exact (hops op₀ hop₀).2 ⟨this.1, this.2⟩

/-- A state with one buffered operation for the C10 witness. -/
def c10db : DBState := writeOperation dbEmpty ⟨[97], [0, 98], [3], true, [], 0⟩

/-- A batched operation on a different pair whose composite key could
alias `([97], [0, 98])` only if bucket names could contain NUL. -/
def c10op : operation := ⟨[97, 98], [99], [4], true, [], 0⟩

/-- Witness for C10 at concrete NUL-containing record keys. -/
theorem C10_witness :
    (bufferKey [97] [0, 98] = bufferKey [97, 98] [99] ↔
      ([97] : Bytes) = [97, 98] ∧ ([0, 98] : Bytes) = [99]) ∧
    getLatestBufferedOperation (writeOperations c10db [c10op]) [97] [0, 98] =
      getLatestBufferedOperation c10db [97] [0, 98] :=
  ⟨(C10_bufferKey_injective [97] [0, 98] [97, 98] [99] (by decide) (by decide)).1,
    (C10_bufferKey_injective [97] [0, 98] [97, 98] [99] (by decide) (by decide)).2
      c10db [c10op] (by decide)⟩

/-- Folding `writeOperation` over operations that all target one
`(bucket, key)` pair leaves the tree and epoch unchanged and ends with a
singleton buffer holding the last operation, stamped with the current
epoch. -/
theorem foldl_wo_last (b k : Bytes) (db : DBState)
    (hbuf : db.buffer = [] ∨ ∃ x, db.buffer = [(bufferKey b k, x)])
    (ops : List operation) (lst : operation)
    (hbk : ∀ op ∈ ops ++ [lst], op.Bucket = b ∧ op.Key = k) :
    ((ops ++ [lst]).foldl writeOperation db).tree = db.tree ∧
    ((ops ++ [lst]).foldl writeOperation db).currentEpoch = db.currentEpoch ∧
    ((ops ++ [lst]).foldl writeOperation db).buffer =
      [(bufferKey b k, { lst with Epoch := db.currentEpoch })] := by
  induction ops generalizing db with
  | nil =>
    simp only [List.nil_append, List.foldl_cons, List.foldl_nil]
    have hb : lst.Bucket = b ∧ lst.Key = k := hbk lst (by simp)
    refine ⟨rfl, rfl, ?_⟩
    show bufUpdate (bufferKey lst.Bucket lst.Key) _ db.buffer = _
    rw [hb.1, hb.2]
    rcases hbuf with h | ⟨x, h⟩ <;> rw [h] <;> simp [bufUpdate]
  | cons op rest ih =>
    simp only [List.cons_append, List.foldl_cons]
    have hb : op.Bucket = b ∧ op.Key = k := hbk op (by simp)
    have hbuf' : (writeOperation db op).buffer = [] ∨
        ∃ x, (writeOperation db op).buffer = [(bufferKey b k, x)] := by
      right
      refine ⟨{ op with Epoch := db.currentEpoch }, ?_⟩
      show bufUpdate (bufferKey op.Bucket op.Key) _ db.buffer = _
      rw [hb.1, hb.2]
      rcases hbuf with h | ⟨x, h⟩ <;> rw [h] <;> simp [bufUpdate]
    exact ih (writeOperation db op) hbuf' fun o ho => hbk o (by simp at ho ⊢; tauto)

/-- Claim C3: latest-wins coalescing — for a `(bucket, key)` pair and
any finite sequence of put/delete operations on that pair written before
a single flush (starting from an empty buffer), the post-flush B+tree
(base partition and every index partition) equals the result of applying
only the last operation of the sequence. -/
theorem C3_latest_wins_coalescing (db₀ : DBState) (h0 : db₀.buffer = [])
    (b k : Bytes) (ops : List operation) (lst : operation)
    (hbk : ∀ op ∈ ops ++ [lst], op.Bucket = b ∧ op.Key = k) :
    (Flush ((ops ++ [lst]).foldl writeOperation db₀) true).tree =
      treeApply lst db₀.tree := by
  have h := foldl_wo_last b k db₀ (Or.inl h0) ops lst hbk
  unfold Flush
  rw [h.2.2, h.1, h.2.1]
  simp [treeApply_epoch]

/-- First write on the pair for the C3 witness: a put. -/
def c3opA : operation := ⟨[98], [107], [1], true, [], 0⟩

/-- Second write on the pair for the C3 witness: a tombstone. -/
def c3opB : operation := ⟨[98], [107], [], false, [], 0⟩

/-- Witness for C3 at a concrete put-then-delete sequence. -/
theorem C3_witness :
    (Flush (([c3opA] ++ [c3opB]).foldl writeOperation dbEmpty) true).tree =
      treeApply c3opB dbEmpty.tree :=
  C3_latest_wins_coalescing dbEmpty rfl [98] [107] [c3opA] c3opB (by decide)

/-- The B+tree fallback path of `Get`: base-partition lookup in a read
transaction, decoding the stored record. -/
def treeLookupGet (s : StoreDef) (db : DBState) (key : Bytes) : Except StoreErr Rec :=
  match treeBucket s.bucket db.tree with
  | none => .error .bucketNotFound
  | some p =>
    match partGet key p with
    | none => .error .keyNotFound
    | some data =>
      match decRec data with
      | some r => .ok r
      | none => .error .decodeErr

/-- A record whose key contains a NUL byte, written successfully. -/
def c4rec : Rec := ⟨[97, 0, 98], [66], 1⟩

/-- The database after the successful write of `c4rec`. -/
def c4db : DBState :=
  match storePut usersStore dbEmpty c4rec with
  | .ok d => d
  | .error _ => dbEmpty

/-- Claim C4 counterexample: after a successful write of a record whose
key contains NUL, the latest buffered operation is a put of that record,
yet `Get` returns `KeyInvalid` — neither the written value nor
`KeyNotFound` — because `Get` validates the key while the write path
does not. -/
theorem C4_counterexample_invalid_key :
    storePut usersStore dbEmpty c4rec = .ok c4db ∧
    (getLatestBufferedOperation c4db usersStore.bucket c4rec.UUID).map
      operation.IsPut = some true ∧
    storeGet usersStore c4db c4rec.UUID = .error .keyInvalid ∧
    storeGet usersStore c4db c4rec.UUID ≠ .ok c4rec ∧
    storeGet usersStore c4db c4rec.UUID ≠ .error .keyNotFound := by decide

/-- Claim C4 (amended): buffer-aware read-after-write visibility for
keys accepted by `validateKey` — a `Get` after a successful `Put`
returns the written record from the buffer before any flush; after a
`Delete` it returns `KeyNotFound` from the buffered tombstone; and only
when no buffered operation exists does it fall back to the B+tree
lookup. -/
theorem C4_buffer_aware_read (s : StoreDef) (db : DBState) (r : Rec) (k : Bytes)
    (hr : validateKey (fieldString (fieldGet r s.keyField)) = true)
    (hk : validateKey k = true) :
    (∃ db', storePut s db r = .ok db' ∧
      storeGet s db' (fieldString (fieldGet r s.keyField)) = .ok r) ∧
    (∃ db', storeDelete s db k = .ok db' ∧ storeGet s db' k = .error .keyNotFound) ∧
    (getLatestBufferedOperation db s.bucket k = none →
      storeGet s db k = treeLookupGet s db k) := by
  refine ⟨?_, ?_, ?_⟩
  · have hne : (fieldString (fieldGet r s.keyField)).isEmpty = false := by
      unfold validateKey at hr
      simp only [Bool.and_eq_true, Bool.not_eq_eq_eq_not, Bool.not_true] at hr
      exact hr.1.1
    cases hput : storePut s db r with
    | error e =>
      unfold storePut at hput
      simp only [hne, Bool.false_eq_true, if_false] at hput
      exact Except.noConfusion hput
    | ok db' =>
      refine ⟨db', rfl, ?_⟩
      unfold storePut at hput
      simp only [hne, Bool.false_eq_true, if_false, Except.ok.injEq] at hput
      subst hput
      simp only [storeGet, getLatestBufferedOperation, writeOperation]
      rw [lookup_bufUpdate_self]
      simp [hr, decRec_encRec]
  · cases hdel : storeDelete s db k with
    | error e =>
      unfold storeDelete at hdel
      simp only [hk, Bool.not_true, Bool.false_eq_true, if_false] at hdel
      exact Except.noConfusion hdel
    | ok db' =>
      refine ⟨db', rfl, ?_⟩
      unfold storeDelete at hdel
      simp only [hk, Bool.not_true, Bool.false_eq_true, if_false, Except.ok.injEq] at hdel
      subst hdel
      simp only [storeGet, getLatestBufferedOperation, writeOperation]
      rw [lookup_bufUpdate_self]
      simp [hk]
  · intro hbuf
    unfold storeGet treeLookupGet
    rw [hk, hbuf]
    simp

/-- A valid record for the C4 witness. -/
def c4wrec : Rec := ⟨[100], [65], 2⟩

/-- Witness for the amended C4 theorem at a concrete record and key. -/
theorem C4_witness :
    (∃ db', storePut usersStore dbEmpty c4wrec = .ok db' ∧
      storeGet usersStore db'
        (fieldString (fieldGet c4wrec usersStore.keyField)) = .ok c4wrec) ∧
    (∃ db', storeDelete usersStore dbEmpty [101] = .ok db' ∧
      storeGet usersStore db' [101] = .error .keyNotFound) ∧
    (getLatestBufferedOperation dbEmpty usersStore.bucket [101] = none →
      storeGet usersStore dbEmpty [101] = treeLookupGet usersStore dbEmpty [101]) :=
  C4_buffer_aware_read usersStore dbEmpty c4wrec [101] (by decide) (by decide)

/-- `replayGo` ignores its fuel argument as long as the fuel covers the
input length. -/
theorem replayGo_congr (f₁ f₂ : Nat) (data : Bytes) (t : Tree)
    (h₁ : data.length ≤ f₁) (h₂ : data.length ≤ f₂) :
    replayGo f₁ data t = replayGo f₂ data t := by
  induction f₁ generalizing f₂ data t with
  | zero =>
    have : data = [] := List.eq_nil_of_length_eq_zero (by omega)
    subst this
    cases f₂ <;> rfl
  | succ f₁ ih =>
    cases data with
    | nil => cases f₂ <;> rfl
    | cons bb bs =>
      cases f₂ with
      | zero => simp at h₂
      | succ f₂ =>
        match hd : decEntry (bb :: bs) with
        | none => simp only [replayGo, hd]
        | some (e, rest) =>
          have hlen := decEntry_length hd
          simp only [replayGo, hd]
          by_cases hc : crc32 (encOp e.Operation) = e.Checksum
          · rw [if_pos hc, if_pos hc]
            exact ih f₂ rest _ (by simp at h₁ hlen ⊢; omega)
              (by simp at h₂ hlen ⊢; omega)
          · rw [if_neg hc, if_neg hc]

/-- Unfolding equation of `replayGo` at positive fuel. -/
theorem replayGo_succ (fuel : Nat) (data : Bytes) (t : Tree) :
    replayGo (fuel + 1) data t =
      match decEntry data with
      | none => t
      | some (e, rest) =>
        if crc32 (encOp e.Operation) = e.Checksum then
          replayGo fuel rest (treeApply e.Operation t)
        else t := rfl

/-- One verified frame steps `replayGo` by one applied operation. -/
theorem replayGo_step (e : walEntry) (X : Bytes) (t : Tree)
    (hc : crc32 (encOp e.Operation) = e.Checksum) :
    replayGo (encEntry e ++ X).length (encEntry e ++ X) t =
      replayGo X.length X (treeApply e.Operation t) := by
  have h2 : (encEntry e ++ X).length =
      (encOp e.Operation ++ encNat e.Checksum ++ X).length + 1 := by
    unfold encEntry
    simp [List.length_append]
  rw [h2, replayGo_succ, decEntry_encEntry]
  dsimp only
  rw [if_pos hc]
  apply replayGo_congr
  · simp only [List.length_append]
    omega
  · exact le_rfl

/-- Replaying checksummed frames followed by an undecodable or
mismatching tail applies exactly the frames' operations. -/
theorem replayGo_frames (entries : List walEntry) (junk : Bytes) (t : Tree)
    (hcrc : ∀ e ∈ entries, crc32 (encOp e.Operation) = e.Checksum)
    (hbad : decEntry junk = none ∨
      ∃ e rest, decEntry junk = some (e, rest) ∧
        crc32 (encOp e.Operation) ≠ e.Checksum) :
    replayGo ((entries.map encEntry).flatten ++ junk).length
        ((entries.map encEntry).flatten ++ junk) t =
      entries.foldl (fun t e => treeApply e.Operation t) t := by
  induction entries generalizing t with
  | nil =>
    simp only [List.map_nil, List.flatten_nil, List.nil_append, List.foldl_nil]
    cases junk with
    | nil => rfl
    | cons bb bs =>
      rcases hbad with h | ⟨e, rest, h, hcbad⟩
      · simp only [List.length_cons, replayGo, h]
      · simp only [List.length_cons, replayGo, h, if_neg hcbad]
  | cons e es ih =>
    rw [show (List.map encEntry (e :: es)).flatten ++ junk =
      encEntry e ++ ((es.map encEntry).flatten ++ junk) by simp]
    rw [replayGo_step e _ t (hcrc e (by simp))]
    rw [ih (treeApply e.Operation t) fun x hx => hcrc x (List.mem_cons_of_mem e hx)]
    simp

/-- Claim C5: recovery applies exactly the longest prefix of WAL frames
that decode and whose recomputed CRC-32 over the re-encoded operation
matches the stored checksum, in order; at the first decode error or
checksum mismatch replay stops, no further operation is applied, the WAL
file is removed (the boolean), and the open does not fail for the
corruption (replay returns normally). -/
theorem C5_replay_longest_valid_prefix (entries : List walEntry) (junk : Bytes)
    (t : Tree)
    (hcrc : ∀ e ∈ entries, crc32 (encOp e.Operation) = e.Checksum)
    (hbad : decEntry junk = none ∨
      ∃ e rest, decEntry junk = some (e, rest) ∧
        crc32 (encOp e.Operation) ≠ e.Checksum) :
    replayWAL ((entries.map encEntry).flatten ++ junk) t =
      (entries.foldl (fun t e => treeApply e.Operation t) t, true) := by
  unfold replayWAL
  rw [replayGo_frames entries junk t hcrc hbad]

/-- A put carrying an index delta for the C5 witness. -/
def c5op : operation := ⟨[99], [108], [2], true, [⟨[110, 97, 109, 101], [], [66]⟩], 1⟩

/-- The valid frame for `c5op`. -/
def c5entry : walEntry := ⟨c5op, crc32 (encOp c5op)⟩

/-- Witness for C5: one valid frame followed by an undecodable byte. -/
theorem C5_witness :
    replayWAL (([c5entry].map encEntry).flatten ++ [9]) [] =
      ([c5entry].foldl (fun t e => treeApply e.Operation t) [], true) :=
  C5_replay_longest_valid_prefix [c5entry] [9] [] (by decide) (Or.inl (by decide))

end Nnut
